import Mathlib

/-!
# Verification of the Claude-code-memory indexing pipeline

A shallow embedding, in Lean 4, of the parts of the `claude_indexer`
Python package that the specification's claims are about:

* the Qdrant vector-store wrapper (`storage/qdrant.py`): deterministic
  point IDs, content-hash deduplication, empty upserts, and the
  orphaned-relation cleanup with its module-name resolution;
* the unified content processor (`processing/unified_processor.py`,
  `processing/processors.py`, `processing/content_processor.py`):
  metadata-chunk construction with `has_implementation` flags and the
  dedup gate;
* the incremental diff of the core indexer (`indexer.py`);
* the async debouncer (`watcher/debounce.py`);
* the file filter (`watcher/file_utils.py`);
* the BM25 sparse embedder (`embeddings/bm25.py`);
* the markdown parser's header/section extraction (`analysis/parser.py`).

Python strings are modelled as `List Char` (named `Str`) so that every
string operation is a structurally recursive, kernel-computable
function.  Python floats (timestamps, weights) are modelled as `ℚ`;
`math.log` is abstracted as a function parameter since the claims are
about the arithmetic structure around it, not about its rounding.
-/

/-- Python `str` values, modelled as lists of characters so that all
operations compute by structural recursion. -/
abbrev Str := List Char

/-- Coerce a Lean string literal to the `Str` model. -/
def str (s : String) : Str := s.data

/-- Python `s.startswith(p)` (also `List.isPrefixOf`). -/
def strStarts (p s : Str) : Bool :=
  match p, s with
  | [], _ => true
  | _ :: _, [] => false
  | c :: cs, d :: ds => c == d && strStarts cs ds

/-- Python `s.endswith(p)`. -/
def strEnds (p s : Str) : Bool := strStarts p.reverse s.reverse

/-- Python substring containment `sub in s`. -/
def strHas (sub s : Str) : Bool :=
  match s with
  | [] => sub.isEmpty
  | _ :: cs => strStarts sub s || strHas sub cs

/-- Python `c in s` for a single character. -/
def strHasChar (c : Char) (s : Str) : Bool := s.contains c

/-- Python `s.split(sep)` for a single-character separator. -/
def splitOnChar (c : Char) (s : Str) : List Str :=
  match s with
  | [] => [[]]
  | d :: ds =>
    let rest := splitOnChar c ds
    if d == c then [] :: rest
    else match rest with
         | [] => [[d]]
         | r :: rs => (d :: r) :: rs

/-- ASCII lower-casing of one character (Python `str.lower` restricted
to ASCII, which is all the code compares). -/
def lowerChar (c : Char) : Char :=
  if 'A' ≤ c ∧ c ≤ 'Z' then Char.ofNat (c.toNat + 32) else c

/-- Python `s.lower()` (ASCII fragment). -/
def strLower (s : Str) : Str := s.map lowerChar

/-- Python whitespace test for `str.strip`. -/
def isWs (c : Char) : Bool := c == ' ' || c == '\t' || c == '\n' || c == '\r'

/-- Python `s.strip()`. -/
def strStrip (s : Str) : Str :=
  ((s.dropWhile isWs).reverse.dropWhile isWs).reverse

/-- Python `s.lstrip(chars)` for a single strip character. -/
def lstripChar (c : Char) (s : Str) : Str := s.dropWhile (· == c)

/-- Python `"\n".join(xs)`. -/
def joinLines : List Str → Str
  | [] => []
  | [l] => l
  | l :: ls => l ++ '\n' :: joinLines ls

/-- Python `"/".join(xs)`, the `str()` form of a path given as its
components. -/
def joinPath : List Str → Str
  | [] => []
  | [l] => l
  | l :: ls => l ++ '/' :: joinPath ls

namespace ClaudeIndexer

/-! ## Vector-store model (storage/qdrant.py)

A stored point is modelled by the payload fields the claims touch; a
collection is a list of points; the store maps collection names to
collections. -/

/-- The payload fields of a stored point that the claims inspect
(`storage/qdrant.py` payload schema). -/
structure Payload where
  entity_name : Str
  relation_target : Str
  chunk_type : Str
  content_hash : Str
deriving DecidableEq, Repr

/-- A stored vector point: a 64-bit id, a dense vector and a payload. -/
structure VectorPoint where
  id : Nat
  vector : List ℚ
  payload : Payload
deriving DecidableEq, Repr

/-- A named collection of points. -/
structure Store where
  collections : List (Str × List VectorPoint)
deriving DecidableEq, Repr

/-- `QdrantStore.collection_exists`. -/
def collectionExists (st : Store) (name : Str) : Bool :=
  (st.collections.map Prod.fst).contains name

/-- The points of a collection (empty when the collection is absent). -/
def collectionPoints (st : Store) (name : Str) : List VectorPoint :=
  match st.collections.find? (fun c => c.1 == name) with
  | some c => c.2
  | none => []

/-- `ContentHashMixin.check_content_exists`: scroll the collection for
any point whose payload `content_hash` matches; a missing collection
(and any client error, which the code catches) yields `false`. -/
def check_content_exists (st : Store) (name : Str) (hash : Str) : Bool :=
  if collectionExists st name then
    (collectionPoints st name).any (fun p => p.payload.content_hash == hash)
  else
    false

/-! ## Result records (`processing/results.py`, `storage/base.py`) -/

/-- `StorageResult`, restricted to the fields the claims mention. -/
structure StorageResult where
  success : Bool
  operation : Str
  items_processed : Nat
  errors : List Str
deriving DecidableEq, Repr

/-! ## upsert_points (`QdrantStore.upsert_points`) -/

/-- `ensure_collection`: create the collection when it is missing. -/
def ensureCollection (st : Store) (name : Str) : Store :=
  if collectionExists st name then st
  else ⟨st.collections ++ [(name, [])]⟩

/-- Upsert one point into a point list: replace the point with the same
id, or append. -/
def upsertOne (ps : List VectorPoint) (p : VectorPoint) : List VectorPoint :=
  if ps.any (fun q => q.id == p.id) then
    ps.map (fun q => if q.id == p.id then p else q)
  else ps ++ [p]

/-- Write a batch of points into one collection of the store. -/
def writePoints (st : Store) (name : Str) (points : List VectorPoint) : Store :=
  ⟨st.collections.map (fun c => if c.1 == name then (c.1, points.foldl upsertOne c.2) else c)⟩

/-- `QdrantStore.upsert_points`: an empty batch returns success with
zero items before any store interaction; otherwise the collection is
ensured and the batch is written (batch splitting and retries change
only timing, not the resulting state, and are elided). -/
def upsert_points (st : Store) (name : Str) (points : List VectorPoint) :
    StorageResult × Store :=
  if points.isEmpty then
    ({ success := true, operation := str "upsert", items_processed := 0, errors := [] }, st)
  else
    let st1 := ensureCollection st name
    ({ success := true, operation := str "upsert", items_processed := points.length,
       errors := [] }, writePoints st1 name points)

/-! ## Entities and chunks (`analysis/entities.py`, modelled from the spec
where the module itself is not in the sources) -/

/-- An extracted entity, restricted to the fields the claims touch. -/
structure Entity where
  name : Str
  file_path : Str
deriving DecidableEq, Repr

/-- An `EntityChunk`: metadata or implementation unit for one entity. -/
structure EntityChunk where
  entity_name : Str
  chunk_type : Str
  content : Str
  has_implementation : Bool
  content_hash : Str
deriving DecidableEq, Repr

/-- Modelled from the spec: `EntityChunk.create_metadata_chunk` lives in
`analysis/entities.py`, which is absent from the sources; per the spec's
data model, a metadata chunk is a compact descriptor of the entity
(chunk_type `metadata`, entity_name the entity's name) carrying the
`has_implementation` boolean passed by the processor. The content hash
is abstracted by a hashing parameter. -/
def create_metadata_chunk (hashOf : Str → Str) (e : Entity) (has_impl : Bool) : EntityChunk :=
  { entity_name := e.name
    chunk_type := str "metadata"
    content := e.name
    has_implementation := has_impl
    content_hash := hashOf e.name }

/-! ## has_implementation flags
(`UnifiedContentProcessor.process_all_content` +
`EntityProcessor.process_batch`) -/

/-- The implementation-entity-name set built at the top of
`process_all_content`: `{chunk.entity_name for chunk in implementation_chunks}`. -/
def implementationEntityNames (implementation_chunks : List EntityChunk) : List Str :=
  implementation_chunks.map (·.entity_name)

/-- The metadata chunks built by `EntityProcessor.process_batch`:
one per entity, with `has_implementation = entity.name in
context.implementation_entity_names`. -/
def buildMetadataChunks (hashOf : Str → Str) (entities : List Entity)
    (implementation_chunks : List EntityChunk) : List EntityChunk :=
  entities.map (fun e =>
    create_metadata_chunk hashOf e
      ((implementationEntityNames implementation_chunks).contains e.name))

/-! ## Dedup gate (`ContentProcessor.check_deduplication`) -/

/-- `ContentProcessor.check_deduplication`: split the batch into
`(to_embed, to_skip)` by probing the collection for each chunk's
content hash. -/
def check_deduplication (st : Store) (name : Str) (items : List EntityChunk) :
    List EntityChunk × List EntityChunk :=
  match items with
  | [] => ([], [])
  | item :: rest =>
    let (embeds, skips) := check_deduplication st name rest
    if check_content_exists st name item.content_hash then
      (embeds, item :: skips)
    else
      (item :: embeds, skips)

/-! ## SHA-256 (`hashlib.sha256`, used by
`QdrantStore.generate_deterministic_id`)

A byte-level implementation of FIPS 180-4 SHA-256 over `List Nat`
(bytes < 256, words < 2^32), with UTF-8 encoding of the input string,
mirroring Python's `content.encode()`. -/

namespace SHA256

/-- 32-bit truncation. -/
def w32 (n : Nat) : Nat := n % 2 ^ 32

/-- Right rotation of a 32-bit word. -/
def rotr (n w : Nat) : Nat := w32 ((w >>> n) ||| (w <<< (32 - n)))

/-- Bitwise complement inside 32 bits. -/
def bnot (w : Nat) : Nat := w32 (w ^^^ (2 ^ 32 - 1))

/-- UTF-8 encoding of one character (Python `str.encode`). -/
def utf8Char (c : Char) : List Nat :=
  let n := c.toNat
  if n < 0x80 then [n]
  else if n < 0x800 then
    [0xC0 ||| (n >>> 6), 0x80 ||| (n &&& 0x3F)]
  else if n < 0x10000 then
    [0xE0 ||| (n >>> 12), 0x80 ||| ((n >>> 6) &&& 0x3F), 0x80 ||| (n &&& 0x3F)]
  else
    [0xF0 ||| (n >>> 18), 0x80 ||| ((n >>> 12) &&& 0x3F),
     0x80 ||| ((n >>> 6) &&& 0x3F), 0x80 ||| (n &&& 0x3F)]

/-- UTF-8 encoding of a string. -/
def encodeUtf8 (s : Str) : List Nat := s.flatMap utf8Char

/-- SHA-256 round constants (FIPS 180-4 §4.2.2), in decimal. -/
def K : List Nat :=
  [1116352408, 1899447441, 3049323471, 3921009573, 961987163, 1508970993,
   2453635748, 2870763221, 3624381080, 310598401, 607225278, 1426881987,
   1925078388, 2162078206, 2614888103, 3248222580, 3835390401, 4022224774,
   264347078, 604807628, 770255983, 1249150122, 1555081692, 1996064986,
   2554220882, 2821834349, 2952996808, 3210313671, 3336571891, 3584528711,
   113926993, 338241895, 666307205, 773529912, 1294757372, 1396182291,
   1695183700, 1986661051, 2177026350, 2456956037, 2730485921, 2820302411,
   3259730800, 3345764771, 3516065817, 3600352804, 4094571909, 275423344,
   430227734, 506948616, 659060556, 883997877, 958139571, 1322822218,
   1537002063, 1747873779, 1955562222, 2024104815, 2227730452, 2361852424,
   2428436474, 2756734187, 3204031479, 3329325298]

/-- SHA-256 initial hash value (FIPS 180-4 §5.3.3), in decimal. -/
def H0 : List Nat :=
  [1779033703, 3144134277, 1013904242, 2773480762,
   1359893119, 2600822924, 528734635, 1541459225]

/-- Group bytes into big-endian 32-bit words. -/
def toWords : List Nat → List Nat
  | a :: b :: c :: d :: rest =>
    ((a <<< 24) ||| (b <<< 16) ||| (c <<< 8) ||| d) :: toWords rest
  | _ => []

/-- Group words into 16-word blocks. -/
def toBlocks : List Nat → List (List Nat)
  | w0 :: w1 :: w2 :: w3 :: w4 :: w5 :: w6 :: w7 ::
    w8 :: w9 :: w10 :: w11 :: w12 :: w13 :: w14 :: w15 :: rest =>
    [w0, w1, w2, w3, w4, w5, w6, w7, w8, w9, w10, w11, w12, w13, w14, w15]
      :: toBlocks rest
  | _ => []

/-- One step of the message-schedule extension: append the next word,
computed from the 2nd, 7th, 15th and 16th most recent words. -/
def extendStep (ws : List Nat) : List Nat :=
  let r := ws.reverse
  let w2 := r.getD 1 0
  let w7 := r.getD 6 0
  let w15 := r.getD 14 0
  let w16 := r.getD 15 0
  let s0 := (rotr 7 w15) ^^^ (rotr 18 w15) ^^^ (w15 >>> 3)
  let s1 := (rotr 17 w2) ^^^ (rotr 19 w2) ^^^ (w2 >>> 10)
  ws ++ [w32 (w16 + s0 + w7 + s1)]

/-- Extend a 16-word block to the 64-word message schedule. -/
def schedule (block : List Nat) : List Nat :=
  (extendStep)^[48] block

/-- One compression round on the working variables `(a,…,h)` with round
constant `k` and schedule word `w`. -/
def round (st : List Nat) (kw : Nat × Nat) : List Nat :=
  match st with
  | [a, b, c, d, e, f, g, h] =>
    let S1 := (rotr 6 e) ^^^ (rotr 11 e) ^^^ (rotr 25 e)
    let ch := (e &&& f) ^^^ ((bnot e) &&& g)
    let t1 := w32 (h + S1 + ch + kw.1 + kw.2)
    let S0 := (rotr 2 a) ^^^ (rotr 13 a) ^^^ (rotr 22 a)
    let mj := (a &&& b) ^^^ (a &&& c) ^^^ (b &&& c)
    let t2 := w32 (S0 + mj)
    [w32 (t1 + t2), a, b, c, w32 (d + t1), e, f, g]
  | other => other

/-- Compress one 16-word block into the running hash value. -/
def compress (H : List Nat) (block : List Nat) : List Nat :=
  let final := (K.zip (schedule block)).foldl round H
  (H.zip final).map (fun p => w32 (p.1 + p.2))

/-- The four big-endian bytes of a 32-bit word. -/
def wordBytes (w : Nat) : List Nat :=
  [(w >>> 24) % 256, (w >>> 16) % 256, (w >>> 8) % 256, w % 256]

/-- SHA-256 padding: `0x80`, zeros to 56 mod 64, then the 64-bit
big-endian bit length. -/
def pad (msg : List Nat) : List Nat :=
  let zeros := (55 + 64 - msg.length % 64) % 64
  let bitLen := (msg.length * 8) % 2 ^ 64
  msg ++ 0x80 :: List.replicate zeros 0 ++
    [(bitLen >>> 56) % 256, (bitLen >>> 48) % 256, (bitLen >>> 40) % 256,
     (bitLen >>> 32) % 256, (bitLen >>> 24) % 256, (bitLen >>> 16) % 256,
     (bitLen >>> 8) % 256, bitLen % 256]

/-- SHA-256 digest (32 bytes) of a byte message. -/
def digestBytes (msg : List Nat) : List Nat :=
  ((toBlocks (toWords (pad msg))).foldl compress H0).flatMap wordBytes

/-- Hexadecimal character of a nibble (lower case, as in Python's
`hexdigest`). -/
def hexChar (v : Nat) : Char :=
  if v < 10 then Char.ofNat (48 + v) else Char.ofNat (87 + v)

/-- The two hex characters of one byte. -/
def byteHex (b : Nat) : List Char := [hexChar (b >>> 4), hexChar (b &&& 15)]

/-- Python `hashlib.sha256(...).hexdigest()` as a character list. -/
def hexdigest (msg : List Nat) : Str := (digestBytes msg).flatMap byteHex

/-- Numeric value of a hex character (only hex digits occur in a
digest). -/
def hexVal (c : Char) : Nat :=
  if '0' ≤ c ∧ c ≤ '9' then c.toNat - 48
  else if 'a' ≤ c ∧ c ≤ 'f' then c.toNat - 87
  else 0

/-- Python `int(hex_string, 16)`. -/
def parseHex (s : Str) : Nat := s.foldl (fun acc c => acc * 16 + hexVal c) 0

/-- Big-endian numeric value of a byte list. -/
def beVal (bs : List Nat) : Nat := bs.foldl (fun acc b => acc * 256 + b) 0

end SHA256

/-- `QdrantStore.generate_deterministic_id`: the first 16 hex characters
of the SHA-256 hex digest of the id string, parsed as a hexadecimal
integer. -/
def generate_deterministic_id (content : Str) : Nat :=
  SHA256.parseHex ((SHA256.hexdigest (SHA256.encodeUtf8 content)).take 16)

/-! ## Incremental diff (`CoreIndexer._find_changed_files`,
`CoreIndexer._find_files_since`, `CoreIndexer._get_last_run_time`)

The state file maps relative paths to `{hash, size, mtime}` records;
the filesystem is abstracted as the association of each discovered file
to the hash and mtime that `_get_current_state`/`stat` would report. -/

/-- One value of the per-collection state file. -/
structure StateEntry where
  hash : Str
  mtime : ℚ
deriving DecidableEq, Repr

/-- What `stat` and `_get_current_state` report for one on-disk file. -/
structure FsFile where
  hash : Str
  mtime : ℚ
deriving DecidableEq, Repr

/-- The parsed state file: relative path → entry. -/
abbrev StateFile := List (Str × StateEntry)

/-- The discovered filesystem: relative path → current hash and mtime. -/
abbrev Filesystem := List (Str × FsFile)

/-- `CoreIndexer._get_last_run_time`: the largest mtime recorded in the
previous state, starting from 0.0. -/
def get_last_run_time (state : StateFile) : ℚ :=
  state.foldl (fun acc e => max acc e.2.mtime) 0

/-- `CoreIndexer._find_files_since`: all files when `since ≤ 0`,
otherwise only files whose mtime exceeds `since`. -/
def find_files_since (fs : Filesystem) (since : ℚ) : Filesystem :=
  if since ≤ 0 then fs else fs.filter (fun f => since < f.2.mtime)

/-- `previous_state.get(file_key, {}).get("hash", "")`. -/
def stateHash (state : StateFile) (key : Str) : Str :=
  match state.find? (fun e => e.1 == key) with
  | some e => e.2.hash
  | none => []

/-- `CoreIndexer._find_changed_files`: hash-compare only the candidate
files whose mtime exceeds the last run time; deleted files are the
state keys absent from the full filesystem scan. -/
def find_changed_files (state : StateFile) (fs : Filesystem) :
    List Str × List Str :=
  let lastRun := get_last_run_time state
  let candidates := find_files_since fs lastRun
  let changed := (candidates.filter
    (fun f => !(f.2.hash == stateHash state f.1))).map (·.1)
  let deleted := (state.map (·.1)).filter
    (fun k => !(fs.map (·.1)).contains k)
  (changed, deleted)

/-! ## Async debouncer (`watcher/debounce.py`, `AsyncDebouncer`) -/

/-- The mutable state of an `AsyncDebouncer`: pending modifications
(path → last update time) and pending deletions. -/
structure DebouncerState where
  pending : List (Str × ℚ)
  deleted : List Str
deriving DecidableEq, Repr

/-- The batch event handed to the callback by `_flush_pending`. -/
structure BatchEvent where
  modified_files : List Str
  deleted_files : List Str
  timestamp : ℚ
deriving DecidableEq, Repr

/-- `AsyncDebouncer._flush_pending` at time `now`: deliver the pending
modifications that have been stable for at least `delay`, together with
all pending deletions; fresher modifications stay pending; deletions
are cleared only when a batch is actually emitted. -/
def flush_pending (delay now : ℚ) (st : DebouncerState) :
    DebouncerState × Option BatchEvent :=
  let stable := st.pending.filter (fun p => delay ≤ now - p.2)
  let remaining := st.pending.filter (fun p => !decide (delay ≤ now - p.2))
  if stable.isEmpty && st.deleted.isEmpty then
    ({ pending := remaining, deleted := st.deleted }, none)
  else
    ({ pending := remaining, deleted := [] },
     some { modified_files := stable.map (·.1),
            deleted_files := st.deleted,
            timestamp := now })

/-- `AsyncDebouncer.stop`: one flush from `stop` itself, then the
cancellation of `_process_events` triggers a second flush from its
`CancelledError` handler; both run at the stop instant. The delivered
batches are collected in order. -/
def debouncerStop (delay now : ℚ) (st : DebouncerState) :
    DebouncerState × List BatchEvent :=
  let r1 := flush_pending delay now st
  let r2 := flush_pending delay now r1.1
  (r2.1, r1.2.toList ++ r2.2.toList)

/-- All modification deliveries of a batch list. -/
def deliveredModified (evs : List BatchEvent) : List Str :=
  evs.flatMap (·.modified_files)

/-- All deletion deliveries of a batch list. -/
def deliveredDeleted (evs : List BatchEvent) : List Str :=
  evs.flatMap (·.deleted_files)

/-! ## File filter (`watcher/file_utils.py`)

Paths are modelled as component lists; the glob matcher implements
Python's `fnmatch.fnmatch` for the `*`, `?` and `[...]`/`[!...]`
constructs. The `exists`/`is_file`/`stat` filesystem probes are passed
in as `Except`-valued oracles, mirroring that any of them may raise. -/

/-- A filesystem path: its components. -/
abbrev FsPath := List Str

/-- Scan a character-class body up to the first `]`: the class
characters and the remaining pattern, or `none` when the class is
unterminated (`fnmatch.translate` then emits a literal `[`). -/
def splitCl : Str → Option (Str × Str)
  | [] => none
  | c :: rest =>
    if c = ']' then some ([], rest)
    else (splitCl rest).map (fun p => (c :: p.1, p.2))

/-- Delimit a character class as `fnmatch.translate` does: a `]` in
first position (after any `!`) belongs to the class body, and the scan
for the closing `]` starts after it. -/
def classSplit : Str → Option (Str × Str)
  | ']' :: rest => (splitCl rest).map (fun p => (']' :: p.1, p.2))
  | s => splitCl s

/-- Does a character match a regex character-class body? Items are
read left to right: `x-y` is a code-point range (a reversed range
matches nothing, as in the translated regex), everything else —
including a `-` in first or last position — is a literal. -/
def classMatch : Str → Char → Bool
  | x :: '-' :: y :: rest, c => (x ≤ c && c ≤ y) || classMatch rest c
  | x :: rest, c => x == c || classMatch rest c
  | [], _ => false

/-- The recursion of Python's `fnmatch.fnmatch`, driven by a fuel
counter so that it is structurally recursive and kernel-computable.
Every recursive step shortens the pattern-plus-text total by at least
one, so a fuel of that total plus one never runs out (the fuel-zero
branch is unreachable for the fuel `fnmatch` supplies). Per
`fnmatch.translate`, `*` becomes `.*` and `?` becomes `.` under
`re.DOTALL`, so both match the newline; an unterminated `[` is a
literal. -/
def fnmatchGo : Nat → Str → Str → Bool
  | 0, _, _ => false
  | _ + 1, [], [] => true
  | _ + 1, [], _ :: _ => false
  | fuel + 1, '*' :: ps, [] => fnmatchGo fuel ps []
  | fuel + 1, '*' :: ps, c :: cs =>
    fnmatchGo fuel ps (c :: cs) || fnmatchGo fuel ('*' :: ps) cs
  | fuel + 1, '?' :: ps, _ :: cs => fnmatchGo fuel ps cs
  | fuel + 1, '[' :: ps, c :: cs =>
    let neg := strStarts (str "!") ps
    let body := if neg then ps.drop 1 else ps
    match classSplit body with
    | none => ('[' == c) && fnmatchGo fuel ps cs
    | some cr =>
      (if neg then !classMatch cr.1 c else classMatch cr.1 c) &&
        fnmatchGo fuel cr.2 cs
  | _ + 1, '[' :: _, [] => false
  | fuel + 1, p :: ps, c :: cs => p == c && fnmatchGo fuel ps cs
  | _ + 1, _ :: _, [] => false

/-- Python `fnmatch.fnmatch` on character lists: `*` matches any run,
`?` any one character, `[..]`/`[!..]` a character class with ranges. -/
def fnmatch (pat s : Str) : Bool :=
  fnmatchGo (pat.length + s.length + 1) pat s

/-- `matches_patterns(text, patterns)`: directory patterns (ending in
`/`) match anywhere in the path; other patterns are fnmatched against
the full text, the file name, and every path part. The path parts and
name of `text` are supplied by the caller of the model, since `Path`
parsing is outside the claims. -/
def matches_patterns (text : Str) (name : Str) (parts : List Str)
    (patterns : List Str) : Bool :=
  patterns.any (fun pattern =>
    if strEnds (str "/") pattern then
      strStarts pattern text || strHas (str "/" ++ pattern) (str "/" ++ text)
    else
      fnmatch pattern text || fnmatch pattern name ||
        parts.any (fun part => fnmatch pattern part))

/-- The filesystem probes `should_process_file` performs, each of which
may raise (`Except.error`). -/
structure FsProbes where
  fileExists : Except Unit Bool
  isFile : Except Unit Bool
  statSize : Except Unit Nat

/-- The size gate `file_path.exists() and file_path.is_file() and
file_path.stat().st_size > max_file_size`, with Python's short-circuit
evaluation inside the exception monad. -/
def sizeGate (probes : FsProbes) (max_file_size : Nat) : Except Unit Bool := do
  let ex ← probes.fileExists
  if !ex then
    pure false
  else do
    let isf ← probes.isFile
    if !isf then
      pure false
    else do
      let sz ← probes.statSize
      pure (decide (sz > max_file_size))

/-- `should_process_file` before its outer exception handler:
`relative_to` succeeds iff the project path is a prefix of the file
path (otherwise `ValueError`, returning `False`); then the include and
exclude pattern gates; then the size gate. -/
def should_process_file_core (file_path : FsPath) (fileName : Str)
    (project_path : FsPath) (include_patterns exclude_patterns : List Str)
    (max_file_size : Nat) (probes : FsProbes) : Except Unit Bool := do
  if !(project_path.isPrefixOf file_path) then
    pure false
  else if !(matches_patterns fileName fileName [fileName] include_patterns) then
    pure false
  else if matches_patterns (joinPath file_path) fileName file_path
      exclude_patterns then
    pure false
  else do
    let big ← sizeGate probes max_file_size
    pure !big

/-- `should_process_file`: the outer `try/except Exception` maps any
raised probe error to `False`. -/
def should_process_file (file_path : FsPath) (fileName : Str)
    (project_path : FsPath) (include_patterns exclude_patterns : List Str)
    (max_file_size : Nat) (probes : FsProbes) : Bool :=
  match should_process_file_core file_path fileName project_path
      include_patterns exclude_patterns max_file_size probes with
  | .ok b => b
  | .error _ => false

/-! ## BM25 sparse embedder (`embeddings/bm25.py`, `BM25Embedder`) -/

/-- The character class of the tokenizer's regex `[a-zA-Z0-9]+`. -/
def isAlnumAscii (c : Char) : Bool :=
  ('a' ≤ c && c ≤ 'z') || ('A' ≤ c && c ≤ 'Z') || ('0' ≤ c && c ≤ '9')

/-- A regex word character, as tested by the `\b` anchors of the
tokenizer's pattern: alphanumerics and the underscore (the ASCII
fragment of `\w`, which is all the code's identifiers use). -/
def isWordChar (c : Char) : Bool := isAlnumAscii c || c == '_'

/-- The matches of `re.findall(r'\b[a-zA-Z0-9]+\b', s)`: a maximal
alphanumeric run is a token only when both of its neighbours are
word boundaries, so a run adjacent to an underscore (a word character
outside the class) is rejected. `leftOk` records whether the character
before the run currently accumulated (reversed, in `acc`) was a
non-word character or the start of the string. -/
def tokenRunsGo : Bool → Str → Str → List Str
  | leftOk, acc, [] =>
    if !acc.isEmpty && leftOk then [acc.reverse] else []
  | leftOk, acc, c :: cs =>
    if isAlnumAscii c then tokenRunsGo leftOk (c :: acc) cs
    else
      let rest := tokenRunsGo (!isWordChar c) [] cs
      if !acc.isEmpty && leftOk && !isWordChar c then acc.reverse :: rest
      else rest

/-- `BM25Embedder._preprocess_text`: lower-case, extract the
word-bounded alphanumeric runs, drop tokens of length ≤ 1. -/
def preprocess_text (text : Str) : List Str :=
  (tokenRunsGo true [] (strLower text)).filter (fun t => 1 < t.length)

/-- The fitted state of a `BM25Embedder`: the vocabulary (term at its
enumeration index) and the raw corpus. -/
structure BM25State where
  vocabulary : List Str
  corpus : List Str
deriving DecidableEq, Repr

/-- The document frequency computed inside `_generate_sparse_vector`:
`sum(1 for doc in corpus if term in preprocess(doc))`. -/
def docFreq (st : BM25State) (term : Str) : Nat :=
  (st.corpus.filter (fun doc => (preprocess_text doc).contains term)).length

/-- The weight written for one query token inside
`_generate_sparse_vector`: the floored IDF `max(0, log((N − df + 0.5)
/ (df + 0.5)))` for a term seen in the corpus, `0.1` for a vocabulary
term with zero document frequency. -/
def idfWeight (log : ℚ → ℚ) (st : BM25State) (token : Str) : ℚ :=
  let df := docFreq st token
  if 0 < df then
    max 0 (log (((st.corpus.length : ℚ) - (df : ℚ) + 1/2) / ((df : ℚ) + 1/2)))
  else 1/10

/-- One write step of the query loop in `_generate_sparse_vector`. -/
def sparseStep (log : ℚ → ℚ) (st : BM25State) (vec : List ℚ) (token : Str) :
    List ℚ :=
  if st.vocabulary.contains token then
    let vocab_idx := st.vocabulary.indexOf token
    if vocab_idx < vec.length then
      vec.set vocab_idx (idfWeight log st token)
    else vec
  else vec

/-- `BM25Embedder._generate_sparse_vector` on a fitted model. Python's
`math.log` is the abstract parameter `log`; all other arithmetic is
exact. -/
def generate_sparse_vector (log : ℚ → ℚ) (st : BM25State) (text : Str) :
    List ℚ :=
  let query_tokens := preprocess_text text
  if query_tokens.isEmpty then
    List.replicate (max st.vocabulary.length 100) 0
  else
    query_tokens.foldl (sparseStep log st)
      (List.replicate (max st.vocabulary.length 100) (0 : ℚ))

/-! ## Orphaned-relation cleanup
(`QdrantStore._cleanup_orphaned_relations` and its inner
`resolve_module_name`) -/

/-- `resolve_module_name`: does a module name resolve to any existing
entity name?  Mirrors the three branches of the source: relative dotted
names, absolute dotted names, and bare package names. -/
def resolve_module_name (entity_names : List Str) (module_name : Str) : Bool :=
  if entity_names.contains module_name then true
  else if strStarts (str ".") module_name then
    let clean_name := lstripChar '.' module_name
    entity_names.any (fun en =>
      strEnds (str "/" ++ clean_name ++ str ".py") en ||
      strEnds (str "\\" ++ clean_name ++ str ".py") en ||
      (strHasChar '.' clean_name &&
        (let path_version := clean_name.map (fun c => if c = '.' then '/' else c)
         strEnds (str "/" ++ path_version ++ str ".py") en ||
           strEnds (str "\\" ++ path_version ++ str ".py") en)) ||
      (strHas clean_name en && strEnds (str ".py") en))
  else if strHasChar '.' module_name then
    let path_parts := splitOnChar '.' module_name
    entity_names.any (fun en =>
      path_parts.all (fun part => strHas part en) &&
      strEnds (str ".py") en &&
      strHas (path_parts.getLastD []) en)
  else
    entity_names.any (fun en =>
      strHas (str "/" ++ module_name ++ str "/") en ||
      strHas (str "\\" ++ module_name ++ str "\\") en ||
      strEnds (str "/" ++ module_name) en ||
      strEnds (str "\\" ++ module_name) en)

/-- The recognized external file extensions of the cleanup pass. -/
def file_extensions : List Str :=
  [str "json", str "csv", str "txt", str "xml", str "yaml", str "yml",
   str "xlsx", str "xls", str "ini", str "toml", str "html", str "css",
   str "log", str "md", str "pdf", str "doc", str "docx", str "png",
   str "jpg", str "jpeg", str "gif", str "svg", str "bin", str "dat"]

/-- The file-reference test of the cleanup pass: a non-empty target
containing a dot whose last dot-component, lower-cased, is a recognized
extension. -/
def is_file_reference (to_entity : Str) : Bool :=
  if !to_entity.isEmpty && strHasChar '.' to_entity then
    let extension := strLower ((splitOnChar '.' to_entity).getLastD [])
    file_extensions.contains extension
  else false

/-- A relation point as the cleanup sees it: payload `entity_name` is
the source, `relation_target` the target. -/
structure RelationPoint where
  id : Nat
  entity_name : Str
  relation_target : Str
deriving DecidableEq, Repr

/-- The orphan classification of one relation inside
`_cleanup_orphaned_relations`: source missing, or target missing and
not an external file reference. -/
def relation_orphaned (entity_names : List Str) (r : RelationPoint) : Bool :=
  let from_missing := !entity_names.contains r.entity_name &&
    !resolve_module_name entity_names r.entity_name
  let to_missing := !entity_names.contains r.relation_target &&
    !resolve_module_name entity_names r.relation_target
  if from_missing then true
  else if to_missing && !is_file_reference r.relation_target then true
  else false

/-- Spec-side predicate (for comparison with the code's
classification): the relation's `from_entity` is in the entity-name set
or resolves via the module-resolution rules, and its `to_entity` is in
the set, resolves, or bears a recognized external file extension. -/
def relationValid (entity_names : List Str) (r : RelationPoint) : Prop :=
  (r.entity_name ∈ entity_names ∨
    resolve_module_name entity_names r.entity_name = true) ∧
  (r.relation_target ∈ entity_names ∨
    resolve_module_name entity_names r.relation_target = true ∨
    is_file_reference r.relation_target = true)

/-- `QdrantStore._cleanup_orphaned_relations`, reduced to its net
effect on the relation points of the collection: the relations kept
and the orphaned relations deleted in one batch. -/
def cleanup_orphaned_relations (entity_names : List Str)
    (relations : List RelationPoint) :
    List RelationPoint × List RelationPoint :=
  (relations.filter (fun r => !relation_orphaned entity_names r),
   relations.filter (fun r => relation_orphaned entity_names r))

/-! ## Markdown header and section extraction
(`MarkdownParser._extract_headers`,
`MarkdownParser._extract_section_content`) -/

/-- A documentation entity produced by `_extract_headers`. -/
structure DocEntity where
  name : Str
  line_number : Nat
  header_level : Nat
deriving DecidableEq, Repr

/-- `MarkdownParser._extract_headers` on the file's lines: one entity
per non-empty `#`/`##` header (1-based line numbers); deeper headers
are dropped. -/
def extract_headers (lines : List Str) : List DocEntity :=
  lines.enum.filterMap (fun p =>
    let line := strStrip p.2
    if strStarts (str "#") line then
      let level := (line.takeWhile (· == '#')).length
      let header_text := strStrip (lstripChar '#' line)
      if !header_text.isEmpty && level ≤ 2 then
        some { name := header_text, line_number := p.1 + 1, header_level := level }
      else none
    else none)

/-- A header record of `_extract_section_content` (0-based line index,
as produced by `enumerate(lines)`). -/
structure MdHeader where
  text : Str
  level : Nat
  line_num : Nat
deriving DecidableEq, Repr, Inhabited

/-- The header scan at the top of `_extract_section_content`: every
non-empty header of any level. -/
def find_md_headers (lines : List Str) : List MdHeader :=
  lines.enum.filterMap (fun p =>
    let line := strStrip p.2
    if strStarts (str "#") line then
      let level := (line.takeWhile (· == '#')).length
      let header_text := strStrip (lstripChar '#' line)
      if !header_text.isEmpty then
        some { text := header_text, level := level, line_num := p.1 }
      else none
    else none)

/-- A section chunk emitted by `_extract_section_content` (the id's MD5
suffix is omitted; no claim touches ids). -/
structure MdChunk where
  entity_name : Str
  chunk_type : Str
  content : Str
  start_line : Option Nat
  end_line : Option Nat
  line_number : Option Nat
deriving DecidableEq, Repr

/-- The section bounds for header `i`: content starts on the line after
the header and ends at the next header of any level (or at the end of
the file). -/
def sectionBounds (lines : List Str) (headers : List MdHeader) (i : Nat) :
    Nat × Nat :=
  let start_line := (headers.getD i default).line_num + 1
  let end_line :=
    match headers.get? (i + 1) with
    | some h => h.line_num
    | none => lines.length
  (start_line, end_line)

/-- The stripped section text of header `i`: the lines strictly between
the header and the next header (or the end of the file), joined and
stripped. -/
def sectionText (lines : List Str) (headers : List MdHeader) (i : Nat) : Str :=
  let b := sectionBounds lines headers i
  strStrip (joinLines ((lines.drop b.1).take (b.2 - b.1)))

/-- The chunks emitted for header `i`: when the stripped section text
is longer than 5 characters, one implementation chunk with
`start_line`/`end_line` metadata and a second implementation chunk
(the converted former metadata chunk) with `line_number` metadata;
otherwise nothing. -/
def chunksForHeader (lines : List Str) (headers : List MdHeader) (i : Nat) :
    List MdChunk :=
  match headers.get? i with
  | none => []
  | some header =>
    let b := sectionBounds lines headers i
    let section_content := sectionText lines headers i
    if !section_content.isEmpty && 5 < (strStrip section_content).length then
      [{ entity_name := header.text
         chunk_type := str "implementation"
         content := section_content
         start_line := some (b.1 + 1)
         end_line := some b.2
         line_number := none },
       { entity_name := header.text
         chunk_type := str "implementation"
         content := section_content
         start_line := none
         end_line := none
         line_number := some (header.line_num + 1) }]
    else []

/-- `MarkdownParser._extract_section_content` on the file's lines. -/
def extract_section_content (lines : List Str) : List MdChunk :=
  let headers := find_md_headers lines
  (List.range headers.length).flatMap (chunksForHeader lines headers)

/-! # Theorems -/

/-- C10: calling `upsert_points` with an empty points list returns a
successful `StorageResult` with `items_processed = 0` and performs no
store operations: the store state (collections and their contents) is
returned unchanged, so no collection is created and no batch is sent. -/
theorem upsert_points_empty_noop (st : Store) (name : Str) :
    (upsert_points st name []).1.success = true ∧
    (upsert_points st name []).1.items_processed = 0 ∧
    (upsert_points st name []).2 = st := by
  simp [upsert_points]

/-- C2: for every entity processed in a batch by `process_all_content`,
the metadata chunk built for it has `has_implementation = true` iff
some implementation chunk with the same `entity_name` is present in
the implementation-chunk list supplied to the same call. -/
theorem metadata_has_implementation_iff (hashOf : Str → Str)
    (entities : List Entity) (implementation_chunks : List EntityChunk)
    (m : EntityChunk)
    (hm : m ∈ buildMetadataChunks hashOf entities implementation_chunks) :
    m.has_implementation = true ↔
      ∃ c ∈ implementation_chunks, c.entity_name = m.entity_name := by
  simp only [buildMetadataChunks, List.mem_map] at hm
  obtain ⟨e, _, rfl⟩ := hm
  simp only [create_metadata_chunk, implementationEntityNames,
    List.contains, List.elem_eq_mem, List.mem_map, decide_eq_true_eq]

/-- Witness for C2 at a concrete batch: one entity `f` and one
implementation chunk named `f`. -/
theorem metadata_has_implementation_iff_witness :
    (create_metadata_chunk (fun _ => []) ⟨str "f", str "a.py"⟩ true).has_implementation = true ↔
      ∃ c ∈ [({ entity_name := str "f", chunk_type := str "implementation",
                content := str "def f(): pass", has_implementation := false,
                content_hash := str "h" } : EntityChunk)],
        c.entity_name = (create_metadata_chunk (fun _ => [])
          ⟨str "f", str "a.py"⟩ true).entity_name :=
  metadata_has_implementation_iff (fun _ => []) [⟨str "f", str "a.py"⟩]
    [{ entity_name := str "f", chunk_type := str "implementation",
       content := str "def f(): pass", has_implementation := false,
       content_hash := str "h" }] _ (by decide)

/-- The dedup gate is the partition of the batch by the content-hash
probe. -/
theorem check_deduplication_eq (st : Store) (name : Str)
    (items : List EntityChunk) :
    check_deduplication st name items =
      (items.filter (fun i => !check_content_exists st name i.content_hash),
       items.filter (fun i => check_content_exists st name i.content_hash)) := by
  induction items with
  | nil => simp [check_deduplication]
  | cons item rest ih =>
    rw [check_deduplication, ih]
    by_cases h : check_content_exists st name item.content_hash = true
    · simp [List.filter, h]
    · simp only [Bool.not_eq_true] at h
      simp [List.filter, h]

/-- C4: for every chunk submitted to the dedup gate, if a point whose
payload `content_hash` equals the chunk's content hash already exists
anywhere in the collection, the chunk lands in the skip list and not in
the to-embed list (hence no embedding request is issued and no point is
built for it). -/
theorem check_deduplication_skips (st : Store) (name : Str)
    (items : List EntityChunk) (chunk : EntityChunk)
    (hin : chunk ∈ items)
    (hcoll : collectionExists st name = true)
    (hex : ∃ p ∈ collectionPoints st name,
      p.payload.content_hash = chunk.content_hash) :
    chunk ∈ (check_deduplication st name items).2 ∧
      chunk ∉ (check_deduplication st name items).1 := by
  have hchk : check_content_exists st name chunk.content_hash = true := by
    simp only [check_content_exists, hcoll, if_true, List.any_eq_true]
    obtain ⟨p, hp, he⟩ := hex
    exact ⟨p, hp, by simp [he]⟩
  rw [check_deduplication_eq]
  constructor
  · exact List.mem_filter.mpr ⟨hin, hchk⟩
  · intro hmem
    have := (List.mem_filter.mp hmem).2
    rw [hchk] at this
    simp at this

/-- Witness for C4 at a concrete store: the collection `col` holds one
point whose `content_hash` matches the submitted chunk's hash, so the
chunk is skipped. -/
theorem check_deduplication_skips_witness :
    ({ entity_name := str "f", chunk_type := str "metadata",
       content := str "x", has_implementation := false,
       content_hash := str "h1" } : EntityChunk) ∈
      (check_deduplication
        ⟨[(str "col",
           [{ id := 1, vector := [],
              payload := { entity_name := str "f", relation_target := [],
                           chunk_type := str "metadata",
                           content_hash := str "h1" } }])]⟩
        (str "col")
        [{ entity_name := str "f", chunk_type := str "metadata",
           content := str "x", has_implementation := false,
           content_hash := str "h1" }]).2 :=
  (check_deduplication_skips
    ⟨[(str "col",
       [{ id := 1, vector := [],
          payload := { entity_name := str "f", relation_target := [],
                       chunk_type := str "metadata",
                       content_hash := str "h1" } }])]⟩
    (str "col") _ _ (by decide) (by decide)
    ⟨{ id := 1, vector := [],
       payload := { entity_name := str "f", relation_target := [],
                    chunk_type := str "metadata",
                    content_hash := str "h1" } }, by decide, by decide⟩).1

/-! ### The deterministic point ID (C5) -/

/-- `hexVal` inverts `hexChar` on nibbles. -/
theorem hexVal_hexChar_lt : ∀ v < 16, SHA256.hexVal (SHA256.hexChar v) = v := by
  decide

/-- Folding the hex parser over the two hex characters of a byte
appends that byte in base 256. -/
theorem byteHex_foldl (a b : Nat) (hb : b < 256) :
    (SHA256.byteHex b).foldl (fun acc c => acc * 16 + SHA256.hexVal c) a =
      a * 256 + b := by
  have h1 : b >>> 4 < 16 := by
    rw [Nat.shiftRight_eq_div_pow]; omega
  have hmod : b &&& 15 = b % 16 := by
    have h := Nat.and_pow_two_sub_one_eq_mod b 4
    norm_num at h
    exact h
  have h2 : b &&& 15 < 16 := by omega
  simp only [SHA256.byteHex, List.foldl_cons, List.foldl_nil]
  rw [hexVal_hexChar_lt _ h1, hexVal_hexChar_lt _ h2, hmod,
    Nat.shiftRight_eq_div_pow]
  norm_num
  omega

/-- Parsing the hex expansion of a byte list equals its big-endian
value, for any fold seed. -/
theorem flatMap_byteHex_parse (bs : List Nat) (h : ∀ b ∈ bs, b < 256)
    (a : Nat) :
    (bs.flatMap SHA256.byteHex).foldl (fun acc c => acc * 16 + SHA256.hexVal c) a =
      bs.foldl (fun acc b => acc * 256 + b) a := by
  induction bs generalizing a with
  | nil => simp
  | cons b rest ih =>
    simp only [List.flatMap_cons, List.foldl_append, List.foldl_cons]
    rw [byteHex_foldl a b (h b (by simp))]
    exact ih (fun x hx => h x (by simp [hx])) _

/-- Taking `2k` characters of the hex expansion is the hex expansion of
the first `k` bytes. -/
theorem take_flatMap_byteHex (bs : List Nat) (k : Nat) :
    (bs.flatMap SHA256.byteHex).take (2 * k) =
      (bs.take k).flatMap SHA256.byteHex := by
  induction bs generalizing k with
  | nil => simp
  | cons b rest ih =>
    cases k with
    | zero => simp
    | succ k2 =>
      have h2 : 2 * (k2 + 1) = (2 * k2) + 1 + 1 := by omega
      simp only [List.flatMap_cons, SHA256.byteHex, List.cons_append,
        List.take_succ_cons, h2]
      simp only [List.nil_append]
      rw [ih k2]

/-- The big-endian value of a byte list is bounded by the base power,
for any fold seed. -/
theorem beVal_foldl_lt (bs : List Nat) (h : ∀ b ∈ bs, b < 256) (a : Nat) :
    bs.foldl (fun acc b => acc * 256 + b) a < (a + 1) * 256 ^ bs.length := by
  induction bs generalizing a with
  | nil => simp
  | cons b rest ih =>
    simp only [List.foldl_cons, List.length_cons]
    have hb := h b (by simp)
    have hstep := ih (fun x hx => h x (by simp [hx])) (a * 256 + b)
    have hle : (a * 256 + b + 1) * 256 ^ rest.length ≤
        (a + 1) * 256 ^ (rest.length + 1) := by
      rw [pow_succ]
      have hc : a * 256 + b + 1 ≤ (a + 1) * 256 := by omega
      calc (a * 256 + b + 1) * 256 ^ rest.length
          ≤ ((a + 1) * 256) * 256 ^ rest.length :=
            Nat.mul_le_mul_right _ hc
        _ = (a + 1) * (256 ^ rest.length * 256) := by ring
    exact lt_of_lt_of_le hstep hle

/-- Every byte of a SHA-256 digest is below 256. -/
theorem digestBytes_lt (msg : List Nat) :
    ∀ b ∈ SHA256.digestBytes msg, b < 256 := by
  intro b hb
  simp only [SHA256.digestBytes, List.mem_flatMap] at hb
  obtain ⟨w, _, hw⟩ := hb
  simp only [SHA256.wordBytes, List.mem_cons, List.not_mem_nil, or_false] at hw
  rcases hw with rfl | rfl | rfl | rfl <;> exact Nat.mod_lt _ (by norm_num)

/-- C5: the vector-store point ID of an id string is obtained by taking
the first 16 hexadecimal characters of the SHA-256 digest and parsing
them as hexadecimal; numerically it is the big-endian value of the
first 8 digest bytes, hence a 64-bit integer, and equal id strings
always yield the same point ID. -/
theorem generate_deterministic_id_spec (s : Str) :
    generate_deterministic_id s =
      SHA256.beVal ((SHA256.digestBytes (SHA256.encodeUtf8 s)).take 8) ∧
    generate_deterministic_id s < 2 ^ 64 ∧
    ∀ t : Str, t = s →
      generate_deterministic_id t = generate_deterministic_id s := by
  have hbound : ∀ b ∈ SHA256.digestBytes (SHA256.encodeUtf8 s), b < 256 :=
    digestBytes_lt _
  have h1 : generate_deterministic_id s =
      SHA256.beVal ((SHA256.digestBytes (SHA256.encodeUtf8 s)).take 8) := by
    unfold generate_deterministic_id SHA256.hexdigest SHA256.parseHex
      SHA256.beVal
    rw [show (16 : Nat) = 2 * 8 from rfl, take_flatMap_byteHex]
    exact flatMap_byteHex_parse _
      (fun b hb => hbound b (List.mem_of_mem_take hb)) 0
  refine ⟨h1, ?_, fun t ht => by rw [ht]⟩
  rw [h1]
  have h2 := beVal_foldl_lt
    ((SHA256.digestBytes (SHA256.encodeUtf8 s)).take 8)
    (fun b hb => hbound b (List.mem_of_mem_take hb)) 0
  simp only [one_mul, Nat.zero_add] at h2
  have h3 : (256 : Nat) ^ ((SHA256.digestBytes (SHA256.encodeUtf8 s)).take 8).length
      ≤ 256 ^ 8 := by
    apply Nat.pow_le_pow_right (by norm_num)
    simp [List.length_take]
  have : (256 : Nat) ^ 8 = 2 ^ 64 := by norm_num
  calc SHA256.beVal ((SHA256.digestBytes (SHA256.encodeUtf8 s)).take 8)
      < 256 ^ ((SHA256.digestBytes (SHA256.encodeUtf8 s)).take 8).length := h2
    _ ≤ 256 ^ 8 := h3
    _ = 2 ^ 64 := this

set_option maxRecDepth 100000 in
/-- Witness for C5 at the id string `"test"`: the point ID evaluates to
`0x9f86d081884c7d65` (the first 16 hex characters of
`sha256("test")`), is a 64-bit integer, and the determinism clause is
discharged at `t = "test"`. -/
theorem generate_deterministic_id_spec_witness :
    generate_deterministic_id (str "test") = 11495104353665842533 ∧
    generate_deterministic_id (str "test") < 2 ^ 64 ∧
    generate_deterministic_id (str "test") =
      generate_deterministic_id (str "test") :=
  ⟨by decide, (generate_deterministic_id_spec (str "test")).2.1,
   (generate_deterministic_id_spec (str "test")).2.2 (str "test") rfl⟩

/-! ### The incremental diff (C3) -/

/-- C3 (amended): in incremental mode, a file is scheduled as modified
iff it is on disk, its mtime exceeds the largest mtime recorded in the
state file (or that maximum is ≤ 0, i.e. the state is empty), and its
current hash differs from the state-file hash; deleted files are
exactly the state-file keys absent from the filesystem. The mtime
condition is the candidate pre-filter of `_find_files_since` that the
original claim omits. -/
theorem find_changed_files_spec (state : StateFile) (fs : Filesystem)
    (key : Str) :
    (key ∈ (find_changed_files state fs).1 ↔
      ∃ fi : FsFile, (key, fi) ∈ fs ∧
        (get_last_run_time state ≤ 0 ∨ get_last_run_time state < fi.mtime) ∧
        fi.hash ≠ stateHash state key) ∧
    (key ∈ (find_changed_files state fs).2 ↔
      (∃ e : StateEntry, (key, e) ∈ state) ∧ ∀ fi : FsFile, (key, fi) ∉ fs) := by
  constructor
  · simp only [find_changed_files, find_files_since, List.mem_map,
      List.mem_filter]
    by_cases hle : get_last_run_time state ≤ 0
    · rw [if_pos hle]
      constructor
      · rintro ⟨⟨k2, fi⟩, ⟨hmem, hp⟩, hfst⟩
        cases hfst
        refine ⟨fi, hmem, Or.inl hle, ?_⟩
        simpa using hp
      · rintro ⟨fi, hmem, _, hne⟩
        exact ⟨(key, fi), ⟨hmem, by simpa using hne⟩, rfl⟩
    · rw [if_neg hle]
      push_neg at hle
      constructor
      · rintro ⟨⟨k2, fi⟩, ⟨hmem2, hp⟩, hfst⟩
        cases hfst
        have hm := List.mem_filter.mp hmem2
        refine ⟨fi, hm.1, Or.inr (by simpa using hm.2), by simpa using hp⟩
      · rintro ⟨fi, hmem, hor, hne⟩
        rcases hor with h0 | hmt
        · exact absurd h0 (not_le.mpr hle)
        · exact ⟨(key, fi),
            ⟨List.mem_filter.mpr ⟨hmem, by simpa using hmt⟩,
             by simpa using hne⟩, rfl⟩
  · simp only [find_changed_files, List.mem_filter, List.mem_map]
    constructor
    · rintro ⟨⟨⟨k2, e⟩, hmem, hfst⟩, hnc⟩
      cases hfst
      refine ⟨⟨e, hmem⟩, ?_⟩
      intro fi hfi
      simp only [Bool.not_eq_true', List.contains, List.elem_eq_mem,
        decide_eq_false_iff_not, List.mem_map] at hnc
      exact hnc ⟨(k2, fi), hfi, rfl⟩
    · rintro ⟨⟨e, hmem⟩, hnone⟩
      refine ⟨⟨(key, e), hmem, rfl⟩, ?_⟩
      simp only [Bool.not_eq_true', List.contains, List.elem_eq_mem,
        decide_eq_false_iff_not, List.mem_map]
      rintro ⟨⟨k2, fi⟩, hfi, hfst⟩
      cases hfst
      exact hnone fi hfi

/-- Counterexample to C3 as stated: file `a` exists in the state file
(hash `h1`, mtime 5) and on disk (hash `h2`, mtime 3). Its content
hash differs, yet the run schedules nothing as modified, because the
mtime pre-filter of `_find_files_since` drops the file (3 is not
greater than the recorded maximum 5). -/
theorem find_changed_files_claim_counterexample :
    (find_changed_files [(str "a", ⟨str "h1", 5⟩)]
        [(str "a", ⟨str "h2", 3⟩)]).1 = [] ∧
    (str "a", (⟨str "h2", 3⟩ : FsFile)) ∈
      ([(str "a", ⟨str "h2", 3⟩)] : Filesystem) ∧
    (⟨str "h2", (3 : ℚ)⟩ : FsFile).hash ≠
      stateHash [(str "a", ⟨str "h1", 5⟩)] (str "a") := by
  refine ⟨?_, by simp, by decide⟩
  have hmax : get_last_run_time [(str "a", ⟨str "h1", (5 : ℚ)⟩)] = 5 := by
    simp [get_last_run_time]
  simp only [find_changed_files, find_files_since, hmax]
  norm_num

/-! ### The debouncer's stop flush (C6) -/

/-- Filtering by `p` after keeping only the elements failing `p` leaves
nothing. -/
theorem filter_pos_of_filter_neg {α : Type} (l : List α) (p : α → Bool) :
    (l.filter (fun x => !p x)).filter p = [] := by
  rw [List.filter_filter]
  apply List.filter_eq_nil_iff.mpr
  intro a _
  cases h : p a <;> simp [h]

/-- Filtering by `¬p` is idempotent. -/
theorem filter_neg_idem {α : Type} (l : List α) (p : α → Bool) :
    (l.filter (fun x => !p x)).filter (fun x => !p x) =
      l.filter (fun x => !p x) := by
  rw [List.filter_filter]
  apply List.filter_congr
  intro a _
  cases h : p a <;> simp [h]

/-- In a duplicate-free list, a present element is counted exactly
once. -/
theorem count_eq_one_of_nodup_mem {α : Type} [BEq α] [LawfulBEq α]
    {l : List α} {a : α} (hnd : l.Nodup) (hm : a ∈ l) : l.count a = 1 := by
  induction l with
  | nil => cases hm
  | cons b r ih =>
    have hb := List.nodup_cons.mp hnd
    rcases List.mem_cons.mp hm with rfl | hr
    · rw [List.count_cons_self, List.count_eq_zero_of_not_mem hb.1]
    · have hne : a ≠ b := by
        rintro rfl
        exact hb.1 hr
      rw [List.count_cons_of_ne hne]
      exact ih hb.2 hr

/-- In an association list with nodup keys, a key determines its
value. -/
theorem nodup_keys_value_eq {α β : Type} (l : List (α × β))
    (h : (l.map Prod.fst).Nodup) {a : α} {b c : β}
    (h1 : (a, b) ∈ l) (h2 : (a, c) ∈ l) : b = c := by
  induction l with
  | nil => cases h1
  | cons x r ih =>
    simp only [List.map_cons, List.nodup_cons] at h
    rcases List.mem_cons.mp h1 with rfl | hb <;>
      rcases List.mem_cons.mp h2 with hx | hc
    · exact (congrArg Prod.snd hx.symm)
    · exact absurd (List.mem_map.mpr ⟨(a, c), hc, rfl⟩) h.1
    · cases hx
      exact absurd (List.mem_map.mpr ⟨(a, b), hb, rfl⟩) h.1
    · exact ih h.2 hb hc

/-- C6 (amended): when the coalescer is stopped, every pending deletion
is delivered to the callback exactly once, and every pending
modification that has been stable for at least the debounce delay is
delivered exactly once; a modification recorded more recently than the
delay is not delivered at all and remains pending after the stop. -/
theorem debouncer_stop_spec (delay now : ℚ) (st : DebouncerState)
    (path : Str) (t : ℚ)
    (hkeys : (st.pending.map Prod.fst).Nodup) (hdel : st.deleted.Nodup) :
    ((path, t) ∈ st.pending → delay ≤ now - t →
      (deliveredModified (debouncerStop delay now st).2).count path = 1) ∧
    ((path, t) ∈ st.pending → now - t < delay →
      path ∉ deliveredModified (debouncerStop delay now st).2 ∧
      (path, t) ∈ (debouncerStop delay now st).1.pending) ∧
    (path ∈ st.deleted →
      (deliveredDeleted (debouncerStop delay now st).2).count path = 1) := by
  have hflush2 : flush_pending delay now
      ⟨st.pending.filter (fun x => !decide (delay ≤ now - x.2)), []⟩ =
      (⟨st.pending.filter (fun x => !decide (delay ≤ now - x.2)), []⟩, none) := by
    simp [flush_pending, filter_pos_of_filter_neg, filter_neg_idem]
  by_cases hg : ((st.pending.filter
      (fun p => decide (delay ≤ now - p.2))).isEmpty && st.deleted.isEmpty) = true
  · -- nothing stable and no deletions: both flushes deliver nothing
    have hstable : st.pending.filter (fun p => decide (delay ≤ now - p.2)) = [] :=
      List.isEmpty_iff.mp (Bool.and_elim_left hg)
    have hdel0 : st.deleted = [] := List.isEmpty_iff.mp (Bool.and_elim_right hg)
    have hflush1 : flush_pending delay now st =
        (⟨st.pending.filter (fun p => !decide (delay ≤ now - p.2)),
          st.deleted⟩, none) := by
      simp only [flush_pending, hg, if_pos]
    have hstop : debouncerStop delay now st =
        (⟨st.pending.filter (fun p => !decide (delay ≤ now - p.2)), []⟩, []) := by
      rw [debouncerStop]
      simp only [hflush1, hdel0, hflush2, Option.toList_none, List.nil_append]
    refine ⟨?_, ?_, ?_⟩
    · intro hmem hle
      have : (path, t) ∈ st.pending.filter (fun p => decide (delay ≤ now - p.2)) :=
        List.mem_filter.mpr ⟨hmem, by simpa using hle⟩
      rw [hstable] at this
      cases this
    · intro hmem hlt
      rw [hstop]
      refine ⟨by simp [deliveredModified], ?_⟩
      exact List.mem_filter.mpr ⟨hmem, by simp [not_le.mpr hlt]⟩
    · intro hmem
      rw [hdel0] at hmem
      cases hmem
  · -- a batch is emitted by the first flush; the second delivers nothing
    have hflush1 : flush_pending delay now st =
        (⟨st.pending.filter (fun p => !decide (delay ≤ now - p.2)), []⟩,
         some { modified_files := (st.pending.filter
                  (fun p => decide (delay ≤ now - p.2))).map (·.1),
                deleted_files := st.deleted, timestamp := now }) := by
      simp only [flush_pending, hg, if_neg, Bool.false_eq_true,
        not_false_iff]
    have hstop : debouncerStop delay now st =
        (⟨st.pending.filter (fun p => !decide (delay ≤ now - p.2)), []⟩,
         [{ modified_files := (st.pending.filter
              (fun p => decide (delay ≤ now - p.2))).map (·.1),
            deleted_files := st.deleted, timestamp := now }]) := by
      rw [debouncerStop]
      simp only [hflush1, hflush2, Option.toList_none, Option.toList_some,
        List.append_nil]
    rw [hstop]
    have hsub : ((st.pending.filter
        (fun p => decide (delay ≤ now - p.2))).map (·.1)).Nodup := by
      have h1 : List.Sublist
          ((st.pending.filter (fun p => decide (delay ≤ now - p.2))).map (·.1))
          (st.pending.map (·.1)) :=
        (List.filter_sublist _).map _
      exact List.Nodup.sublist h1 hkeys
    refine ⟨?_, ?_, ?_⟩
    · intro hmem hle
      have hmem2 : path ∈ (st.pending.filter
          (fun p => decide (delay ≤ now - p.2))).map (·.1) :=
        List.mem_map.mpr ⟨(path, t),
          List.mem_filter.mpr ⟨hmem, by simpa using hle⟩, rfl⟩
      simpa [deliveredModified] using
        count_eq_one_of_nodup_mem hsub hmem2
    · intro hmem hlt
      constructor
      · intro hmem2
        simp only [deliveredModified, List.flatMap_cons, List.flatMap_nil,
          List.append_nil, List.mem_map] at hmem2
        obtain ⟨⟨k, u⟩, hku, hfst⟩ := hmem2
        cases hfst
        have hmf := List.mem_filter.mp hku
        have : t = u := nodup_keys_value_eq st.pending hkeys hmem hmf.1
        subst this
        exact absurd (by simpa using hmf.2) (not_le.mpr hlt)
      · exact List.mem_filter.mpr ⟨hmem, by simp [not_le.mpr hlt]⟩
    · intro hmem
      simpa [deliveredDeleted] using count_eq_one_of_nodup_mem hdel hmem

set_option maxRecDepth 4000 in
/-- Witness for C6 at a concrete debouncer state: one modification of
`a` that is already stable (delay 0) and one pending deletion of `b`;
both are delivered exactly once by the stop flush. -/
theorem debouncer_stop_spec_witness :
    (deliveredModified
      (debouncerStop 0 8 ⟨[(str "a", 8)], [str "b"]⟩).2).count (str "a") = 1 ∧
    (deliveredDeleted
      (debouncerStop 0 8 ⟨[(str "a", 8)], [str "b"]⟩).2).count (str "b") = 1 :=
  ⟨(debouncer_stop_spec 0 8 ⟨[(str "a", 8)], [str "b"]⟩ (str "a") 8
      (by decide) (by decide)).1 (by simp) (by simp),
   (debouncer_stop_spec 0 8 ⟨[(str "a", 8)], [str "b"]⟩ (str "b") 0
      (by decide) (by decide)).2.2 (by simp)⟩

/-- Counterexample to C6 as stated: a modification of `a` recorded at
the stop instant (more recent than the 2-second delay) is not delivered
by the stop flush — the claim's "every pending modification regardless
of how recently it was recorded" fails; the event stays pending. -/
theorem debouncer_stop_claim_counterexample :
    deliveredModified (debouncerStop 2 10 ⟨[(str "a", 10)], []⟩).2 = [] ∧
    (str "a", (10 : ℚ)) ∈ (debouncerStop 2 10 ⟨[(str "a", 10)], []⟩).1.pending := by
  have h1 : decide ((2 : ℚ) ≤ 10 - 10) = false := decide_eq_false (by norm_num)
  have h2 : decide ((2 : ℚ) ≤ 0) = false := decide_eq_false (by norm_num)
  constructor
  · simp [debouncerStop, flush_pending, deliveredModified, h1, h2]
  · simp [debouncerStop, flush_pending, h1, h2]

/-! ### The watcher's file filter (C9) -/

/-- C9: `should_process_file` is total (it is a function into `Bool`)
and returns `False` whenever the file does not resolve within the
project root, whenever the file name matches no include pattern, and
whenever a filesystem probe that the evaluation actually consults
(`exists`, `is_file`, `stat`) raises. -/
theorem should_process_file_spec (fp : FsPath) (fname : Str) (proj : FsPath)
    (incl excl : List Str) (mfs : Nat) (probes : FsProbes) :
    (proj.isPrefixOf fp = false →
      should_process_file fp fname proj incl excl mfs probes = false) ∧
    (matches_patterns fname fname [fname] incl = false →
      should_process_file fp fname proj incl excl mfs probes = false) ∧
    (probes.fileExists = .error () →
      should_process_file fp fname proj incl excl mfs probes = false) ∧
    (probes.fileExists = .ok true → probes.isFile = .error () →
      should_process_file fp fname proj incl excl mfs probes = false) ∧
    (probes.fileExists = .ok true → probes.isFile = .ok true →
      probes.statSize = .error () →
      should_process_file fp fname proj incl excl mfs probes = false) := by
  refine ⟨?_, ?_, ?_, ?_, ?_⟩
  · intro h
    simp [should_process_file, should_process_file_core, Pure.pure, Except.pure, h]
  · intro h
    by_cases hip : proj.isPrefixOf fp = true
    · simp [should_process_file, should_process_file_core, Pure.pure, Except.pure, hip, h]
    · simp only [Bool.not_eq_true] at hip
      simp [should_process_file, should_process_file_core, Pure.pure, Except.pure, hip]
  · intro h
    by_cases hip : proj.isPrefixOf fp = true
    · by_cases him : matches_patterns fname fname [fname] incl = true
      · by_cases hex : matches_patterns (joinPath fp) fname fp excl = true
        · simp [should_process_file, should_process_file_core, Pure.pure, Except.pure, hip, him, hex]
        · simp only [Bool.not_eq_true] at hex
          simp [should_process_file, should_process_file_core, Pure.pure, Except.pure, sizeGate,
            hip, him, hex, h, Bind.bind, Except.bind]
      · simp only [Bool.not_eq_true] at him
        simp [should_process_file, should_process_file_core, Pure.pure, Except.pure, hip, him]
    · simp only [Bool.not_eq_true] at hip
      simp [should_process_file, should_process_file_core, Pure.pure, Except.pure, hip]
  · intro h1 h2
    by_cases hip : proj.isPrefixOf fp = true
    · by_cases him : matches_patterns fname fname [fname] incl = true
      · by_cases hex : matches_patterns (joinPath fp) fname fp excl = true
        · simp [should_process_file, should_process_file_core, Pure.pure, Except.pure, hip, him, hex]
        · simp only [Bool.not_eq_true] at hex
          simp [should_process_file, should_process_file_core, Pure.pure, Except.pure, sizeGate,
            hip, him, hex, h1, h2, Bind.bind, Except.bind]
      · simp only [Bool.not_eq_true] at him
        simp [should_process_file, should_process_file_core, Pure.pure, Except.pure, hip, him]
    · simp only [Bool.not_eq_true] at hip
      simp [should_process_file, should_process_file_core, Pure.pure, Except.pure, hip]
  · intro h1 h2 h3
    by_cases hip : proj.isPrefixOf fp = true
    · by_cases him : matches_patterns fname fname [fname] incl = true
      · by_cases hex : matches_patterns (joinPath fp) fname fp excl = true
        · simp [should_process_file, should_process_file_core, Pure.pure, Except.pure, hip, him, hex]
        · simp only [Bool.not_eq_true] at hex
          simp [should_process_file, should_process_file_core, Pure.pure, Except.pure, sizeGate,
            hip, him, hex, h1, h2, h3, Bind.bind, Except.bind]
      · simp only [Bool.not_eq_true] at him
        simp [should_process_file, should_process_file_core, Pure.pure, Except.pure, hip, him]
    · simp only [Bool.not_eq_true] at hip
      simp [should_process_file, should_process_file_core, Pure.pure, Except.pure, hip]

/-- Witness for C9 at concrete inputs: a file outside the project root
is rejected, a file matching no include pattern is rejected, and a
raising `exists` probe is rejected. -/
theorem should_process_file_spec_witness :
    should_process_file [str "other", str "x.py"] (str "x.py")
      [str "proj"] [str "*.py"] [] 1048576
      ⟨.ok true, .ok true, .ok 10⟩ = false ∧
    should_process_file [str "proj", str "x.md"] (str "x.md")
      [str "proj"] [str "*.py"] [] 1048576
      ⟨.ok true, .ok true, .ok 10⟩ = false ∧
    should_process_file [str "proj", str "y.py"] (str "y.py")
      [str "proj"] [str "*.py"] [] 1048576
      ⟨.error (), .ok true, .ok 10⟩ = false :=
  ⟨(should_process_file_spec [str "other", str "x.py"] (str "x.py")
      [str "proj"] [str "*.py"] [] 1048576
      ⟨.ok true, .ok true, .ok 10⟩).1 (by decide),
   (should_process_file_spec [str "proj", str "x.md"] (str "x.md")
      [str "proj"] [str "*.py"] [] 1048576
      ⟨.ok true, .ok true, .ok 10⟩).2.1 (by decide),
   (should_process_file_spec [str "proj", str "y.py"] (str "y.py")
      [str "proj"] [str "*.py"] [] 1048576
      ⟨.error (), .ok true, .ok 10⟩).2.2.1 rfl⟩

/-! ### Orphaned-relation cleanup (C1) -/

/-- The code's orphan classification is the negation of the spec's
validity predicate. -/
theorem relation_orphaned_false_iff (names : List Str) (r : RelationPoint) :
    relation_orphaned names r = false ↔ relationValid names r := by
  unfold relation_orphaned relationValid
  cases hc1 : names.contains r.entity_name <;>
  cases hr1 : resolve_module_name names r.entity_name <;>
  cases hc2 : names.contains r.relation_target <;>
  cases hr2 : resolve_module_name names r.relation_target <;>
  cases hf : is_file_reference r.relation_target <;>
  simp_all [List.contains, List.elem_eq_mem]

/-- C1: after the orphan cleanup, every relation point remaining in the
collection satisfies the spec's validity predicate (source present or
resolvable; target present, resolvable, or an external file
reference), and every relation violating it is in the batch deleted by
the cleanup pass. -/
theorem cleanup_orphaned_relations_spec (names : List Str)
    (relations : List RelationPoint) :
    (∀ r ∈ (cleanup_orphaned_relations names relations).1,
      relationValid names r) ∧
    (∀ r ∈ relations, ¬ relationValid names r →
      r ∈ (cleanup_orphaned_relations names relations).2) := by
  constructor
  · intro r hr
    have h := (List.mem_filter.mp hr).2
    simp only [Bool.not_eq_true'] at h
    exact (relation_orphaned_false_iff names r).mp h
  · intro r hr hnv
    apply List.mem_filter.mpr
    refine ⟨hr, ?_⟩
    by_cases h : relation_orphaned names r = true
    · exact h
    · simp only [Bool.not_eq_true] at h
      exact absurd ((relation_orphaned_false_iff names r).mp h) hnv

/-- Witness for C1 at a concrete collection: the relation
`src/main.py → data.json` survives the cleanup (the source is an
entity, the target a recognized external file reference), and the
theorem yields its validity. -/
theorem cleanup_orphaned_relations_spec_witness :
    relationValid [str "src/main.py"]
      ⟨1, str "src/main.py", str "data.json"⟩ :=
  (cleanup_orphaned_relations_spec [str "src/main.py"]
    [⟨1, str "src/main.py", str "data.json"⟩]).1
    ⟨1, str "src/main.py", str "data.json"⟩ (by decide)

/-! ### Tokenizer and glob-matcher semantics, pinned against CPython

Each of the following equalities was checked against CPython
(`re.findall(r'\b[a-zA-Z0-9]+\b', ...)` and `fnmatch.fnmatch`) on the
same inputs. -/

/-- An underscored identifier yields no tokens: `_` is a word
character, so the `\b` anchors reject the adjacent runs. -/
theorem preprocess_text_underscored :
    preprocess_text (str "foo_bar") = [] ∧
    preprocess_text (str "ab_cd ef") = [str "ef"] ∧
    preprocess_text (str "3foo_") = [] := by decide

/-- Runs separated by non-word characters are tokens. -/
theorem preprocess_text_hyphen_space :
    preprocess_text (str "foo-bar") = [str "foo", str "bar"] ∧
    preprocess_text (str "hello world") = [str "hello", str "world"] := by
  decide

/-- Character-class ranges match by code point, case-sensitively. -/
theorem fnmatch_class_range :
    fnmatch (str "[a-z].py") (str "b.py") = true ∧
    fnmatch (str "[a-z]") (str "B") = false ∧
    fnmatch (str "[!a-z]") (str "b") = false ∧
    fnmatch (str "[z-a]") (str "b") = false := by decide

/-- A class-leading `]` is literal, `?` matches the newline, and an
unterminated `[` (including `[!]`) is a literal pattern. -/
theorem fnmatch_class_corners :
    fnmatch (str "[]]") (str "]") = true ∧
    fnmatch (str "?") (str "\n") = true ∧
    fnmatch (str "[a-z") (str "[a-z") = true ∧
    fnmatch (str "[!]") (str "[!]") = true ∧
    fnmatch (str "[a-]") (str "-") = true := by decide

/-! ### BM25 query vectors (C7) -/

/-- A present element's index is inside the list. -/
theorem indexOf_lt_length_of_mem {α : Type} [BEq α] [LawfulBEq α]
    {a : α} {l : List α} (h : a ∈ l) : l.indexOf a < l.length := by
  induction l with
  | nil => cases h
  | cons b r ih =>
    rw [List.indexOf_cons]
    by_cases hba : (b == a) = true
    · simp [hba]
    · have hmem : a ∈ r := by
        rcases List.mem_cons.mp h with rfl | hr
        · exact absurd (by simp) hba
        · exact hr
      simp only [hba, cond_false, List.length_cons]
      exact Nat.succ_lt_succ (ih hmem)

/-- Reading back at a present element's index gives the element. -/
theorem getD_indexOf_self {α : Type} [BEq α] [LawfulBEq α]
    {a d : α} {l : List α} (h : a ∈ l) : l.getD (l.indexOf a) d = a := by
  induction l with
  | nil => cases h
  | cons b r ih =>
    rw [List.indexOf_cons]
    by_cases hba : (b == a) = true
    · have : b = a := eq_of_beq hba
      simp [this]
    · have hmem : a ∈ r := by
        rcases List.mem_cons.mp h with rfl | hr
        · exact absurd (by simp) hba
        · exact hr
      simp only [hba, cond_false, List.getD_cons_succ]
      exact ih hmem

/-- In a duplicate-free list, the index of the `i`-th element is `i`. -/
theorem indexOf_getD_of_nodup {α : Type} [BEq α] [LawfulBEq α]
    {l : List α} (hnd : l.Nodup) {i : Nat} (hi : i < l.length) (d : α) :
    l.indexOf (l.getD i d) = i := by
  induction l generalizing i with
  | nil => simp at hi
  | cons b r ih =>
    have hb := List.nodup_cons.mp hnd
    cases i with
    | zero => simp [List.indexOf_cons]
    | succ j =>
      have hj : j < r.length := by simpa using hi
      rw [List.getD_cons_succ, List.indexOf_cons]
      have hrmem : r.getD j d ∈ r := by
        rw [List.getD_eq_getElem?_getD, List.getElem?_eq_getElem hj]
        exact List.getElem_mem hj
      have hbne : (b == r.getD j d) = false := by
        apply beq_eq_false_iff_ne.mpr
        intro heq
        apply hb.1
        rw [heq]
        exact hrmem
      simp only [hbne, cond_false]
      rw [ih hb.2 hj]

/-- The query loop preserves the vector length. -/
theorem sparse_fold_length (log : ℚ → ℚ) (st : BM25State) (ts : List Str)
    (vec : List ℚ) :
    (ts.foldl (sparseStep log st) vec).length = vec.length := by
  induction ts generalizing vec with
  | nil => rfl
  | cons tok rest ih =>
    rw [List.foldl_cons, ih]
    simp only [sparseStep]
    by_cases hc : st.vocabulary.contains tok = true
    · simp only [hc, if_true]
      by_cases hl : List.indexOf tok st.vocabulary < vec.length
      · simp [hl]
      · simp [hl]
    · have hnm : tok ∉ st.vocabulary := by
        simpa [List.contains, List.elem_eq_mem] using hc
      simp [hnm]

/-- Pointwise characterization of the query loop: position `i` ends up
holding the IDF weight of the `i`-th vocabulary term when that term
occurs among the query tokens, and is untouched otherwise. -/
theorem sparse_fold_getD (log : ℚ → ℚ) (st : BM25State)
    (hnd : st.vocabulary.Nodup) (ts : List Str) (vec : List ℚ)
    (hlen : st.vocabulary.length ≤ vec.length) (i : Nat) :
    (ts.foldl (sparseStep log st) vec).getD i 0 =
      if i < st.vocabulary.length ∧ st.vocabulary.getD i [] ∈ ts then
        idfWeight log st (st.vocabulary.getD i [])
      else vec.getD i 0 := by
  induction ts generalizing vec with
  | nil => simp
  | cons tok rest ih =>
    rw [List.foldl_cons]
    by_cases hc : st.vocabulary.contains tok = true
    · have hmem : tok ∈ st.vocabulary := by
        simpa [List.contains, List.elem_eq_mem] using hc
      have hidx : st.vocabulary.indexOf tok < st.vocabulary.length :=
        indexOf_lt_length_of_mem hmem
      have hstep : sparseStep log st vec tok =
          vec.set (st.vocabulary.indexOf tok) (idfWeight log st tok) := by
        simp only [sparseStep, hc, if_true]
        rw [if_pos (lt_of_lt_of_le hidx hlen)]
      rw [hstep]
      rw [ih _ (by simpa using hlen)]
      by_cases hrest : i < st.vocabulary.length ∧
          st.vocabulary.getD i [] ∈ rest
      · rw [if_pos hrest, if_pos ⟨hrest.1, List.mem_cons_of_mem _ hrest.2⟩]
      · rw [if_neg hrest]
        by_cases hi : i = st.vocabulary.indexOf tok
        · subst hi
          have hgd : st.vocabulary.getD (st.vocabulary.indexOf tok) [] = tok :=
            getD_indexOf_self hmem
          rw [if_pos ⟨hidx, by rw [hgd]; exact List.mem_cons_self _ _⟩, hgd]
          simp [List.getD_eq_getElem?_getD,
            List.getElem?_set_self (lt_of_lt_of_le hidx hlen)]
        · have hset : (vec.set (st.vocabulary.indexOf tok)
              (idfWeight log st tok)).getD i 0 = vec.getD i 0 := by
            simp [List.getD_eq_getElem?_getD,
              List.getElem?_set_ne (Ne.symm hi)]
          rw [hset]
          rw [if_neg ?_]
          rintro ⟨hin, hmem2⟩
          rcases List.mem_cons.mp hmem2 with heq | hmemr
          · apply hi
            have hio := indexOf_getD_of_nodup hnd hin ([] : Str)
            rw [heq] at hio
            exact hio.symm
          · exact hrest ⟨hin, hmemr⟩
    · have hnm : tok ∉ st.vocabulary := by
        simpa [List.contains, List.elem_eq_mem] using hc
      have hstep : sparseStep log st vec tok = vec := by
        simp [sparseStep, hnm]
      rw [hstep, ih _ hlen]
      by_cases hrest : i < st.vocabulary.length ∧
          st.vocabulary.getD i [] ∈ rest
      · rw [if_pos hrest, if_pos ⟨hrest.1, List.mem_cons_of_mem _ hrest.2⟩]
      · rw [if_neg hrest, if_neg ?_]
        rintro ⟨hin, hmem2⟩
        rcases List.mem_cons.mp hmem2 with heq | hmemr
        · apply hc
          have : st.vocabulary.getD i [] ∈ st.vocabulary := by
            rw [List.getD_eq_getElem?_getD, List.getElem?_eq_getElem hin]
            exact List.getElem_mem hin
          rw [heq] at this
          simpa [List.contains, List.elem_eq_mem] using this
        · exact hrest ⟨hin, hmemr⟩

/-- `getD` of a replicated list at the replicated value is that
value. -/
theorem getD_replicate_self {α : Type} (a : α) (n i : Nat) :
    (List.replicate n a).getD i a = a := by
  rw [List.getD_eq_getElem?_getD, List.getElem?_replicate]
  split <;> rfl

/-- C7: on a fitted model, each query token present in the vocabulary
receives the floored IDF weight `max(0, log((N − df + 0.5)/(df +
0.5)))`, a vocabulary token with zero document frequency receives 0.1,
every other position is 0, and a query with no tokens yields an
all-zero vector of length `max(vocabulary size, 100)`. -/
theorem generate_sparse_vector_spec (log : ℚ → ℚ) (st : BM25State)
    (text : Str) (hnd : st.vocabulary.Nodup) :
    (preprocess_text text = [] →
      generate_sparse_vector log st text =
        List.replicate (max st.vocabulary.length 100) 0) ∧
    (generate_sparse_vector log st text).length =
      max st.vocabulary.length 100 ∧
    (∀ i, i < st.vocabulary.length →
      (generate_sparse_vector log st text).getD i 0 =
        if st.vocabulary.getD i [] ∈ preprocess_text text then
          idfWeight log st (st.vocabulary.getD i [])
        else 0) ∧
    (∀ i, st.vocabulary.length ≤ i →
      (generate_sparse_vector log st text).getD i 0 = 0) := by
  by_cases hq : (preprocess_text text).isEmpty = true
  · have hqe : preprocess_text text = [] := List.isEmpty_iff.mp hq
    have hv : generate_sparse_vector log st text =
        List.replicate (max st.vocabulary.length 100) 0 := by
      unfold generate_sparse_vector
      rw [hqe]
      rfl
    refine ⟨fun _ => hv, by simp [hv], ?_, ?_⟩
    · intro i _
      rw [hv, hqe, getD_replicate_self]
      simp
    · intro i _
      rw [hv, getD_replicate_self]
  · have hv : generate_sparse_vector log st text =
        (preprocess_text text).foldl (sparseStep log st)
          (List.replicate (max st.vocabulary.length 100) (0 : ℚ)) := by
      unfold generate_sparse_vector
      rw [if_neg (by simpa using hq)]
    have hle : st.vocabulary.length ≤
        (List.replicate (max st.vocabulary.length 100) (0 : ℚ)).length := by
      simp
    refine ⟨?_, ?_, ?_, ?_⟩
    · intro h
      exact absurd h (by simpa [List.isEmpty_iff] using hq)
    · rw [hv, sparse_fold_length]
      simp
    · intro i hi
      rw [hv, sparse_fold_getD log st hnd _ _ hle, getD_replicate_self]
      by_cases hmem : st.vocabulary.getD i [] ∈ preprocess_text text
      · rw [if_pos ⟨hi, hmem⟩, if_pos hmem]
      · rw [if_neg (by rintro ⟨_, h⟩; exact hmem h), if_neg hmem]
    · intro i hi
      rw [hv, sparse_fold_getD log st hnd _ _ hle, getD_replicate_self,
        if_neg (by rintro ⟨h, _⟩; omega)]

/-- Witness for C7 at a concrete fitted model: vocabulary `["hello"]`,
corpus `["hello world"]`, query `"hello"`; the nodup hypothesis and the
index bound are discharged concretely. -/
theorem generate_sparse_vector_spec_witness :
    (generate_sparse_vector (fun _ => 3)
        ⟨[str "hello"], [str "hello world"]⟩ (str "hello")).getD 0 0 =
      (if (⟨[str "hello"], [str "hello world"]⟩ : BM25State).vocabulary.getD 0 []
          ∈ preprocess_text (str "hello") then
        idfWeight (fun _ => 3) ⟨[str "hello"], [str "hello world"]⟩
          ((⟨[str "hello"], [str "hello world"]⟩ : BM25State).vocabulary.getD 0 [])
      else 0) :=
  ((generate_sparse_vector_spec (fun _ => 3)
      ⟨[str "hello"], [str "hello world"]⟩ (str "hello")
      (by decide)).2.2.1) 0 (by decide)

/-! ### Markdown section extraction (C8) -/

/-- A flatMap over a range in which every index but one contributes
nothing equals that one contribution. -/
theorem flatMap_range_eq_single {β : Type} (n i : Nat) (g : Nat → List β)
    (hi : i < n) (h0 : ∀ j < n, j ≠ i → g j = []) :
    (List.range n).flatMap g = g i := by
  induction n with
  | zero => omega
  | succ m ih =>
    rw [List.range_succ, List.flatMap_append]
    by_cases him : i = m
    · subst him
      have hnil : (List.range i).flatMap g = [] := by
        apply List.flatMap_eq_nil_iff.mpr
        intro j hj
        have := List.mem_range.mp hj
        exact h0 j (by omega) (by omega)
      simp [hnil]
    · have hi2 : i < m := by omega
      rw [ih hi2 (fun j hj hne => h0 j (by omega) hne)]
      have hm : g m = [] := h0 m (by omega) (Ne.symm him)
      simp [hm]

/-- Unfolding of `chunksForHeader` once the header lookup succeeds. -/
theorem chunksForHeader_eq (lines : List Str) (headers : List MdHeader)
    (j : Nat) (hdr : MdHeader) (hg : headers.get? j = some hdr) :
    chunksForHeader lines headers j =
      if !(sectionText lines headers j).isEmpty &&
          5 < (strStrip (sectionText lines headers j)).length then
        [{ entity_name := hdr.text
           chunk_type := str "implementation"
           content := sectionText lines headers j
           start_line := some ((sectionBounds lines headers j).1 + 1)
           end_line := some (sectionBounds lines headers j).2
           line_number := none },
         { entity_name := hdr.text
           chunk_type := str "implementation"
           content := sectionText lines headers j
           start_line := none
           end_line := none
           line_number := some (hdr.line_num + 1) }]
      else [] := by
  unfold chunksForHeader
  rw [hg]

/-- Every chunk emitted for header `j` carries that header's text as
its entity name, is an implementation chunk, and holds the stripped
section text. -/
theorem chunksForHeader_fields (lines : List Str) (headers : List MdHeader)
    (j : Nat) (c : MdChunk) (hc : c ∈ chunksForHeader lines headers j) :
    c.entity_name = (headers.getD j default).text ∧
    c.chunk_type = str "implementation" ∧
    c.content = sectionText lines headers j := by
  cases hg : headers.get? j with
  | none =>
    unfold chunksForHeader at hc
    rw [hg] at hc
    cases hc
  | some hdr =>
    rw [chunksForHeader_eq lines headers j hdr hg] at hc
    have hgd : headers.getD j default = hdr := by
      rw [List.getD_eq_getElem?_getD, ← List.get?_eq_getElem?, hg]
      rfl
    rw [hgd]
    by_cases hcond : (!(sectionText lines headers j).isEmpty &&
        decide (5 < (strStrip (sectionText lines headers j)).length)) = true
    · rw [if_pos hcond] at hc
      rcases List.mem_cons.mp hc with rfl | hc2
      · exact ⟨rfl, rfl, rfl⟩
      · rcases List.mem_cons.mp hc2 with rfl | hc3
        · exact ⟨rfl, rfl, rfl⟩
        · cases hc3
    · rw [if_neg hcond] at hc
      cases hc

/-- The number of chunks emitted for header `j`: two when the stripped
section text is longer than 5 characters, zero otherwise. -/
theorem chunksForHeader_length (lines : List Str) (headers : List MdHeader)
    (j : Nat) (hj : j < headers.length) :
    (chunksForHeader lines headers j).length =
      if !(sectionText lines headers j).isEmpty &&
          5 < (strStrip (sectionText lines headers j)).length
      then 2 else 0 := by
  have hg : headers.get? j = some headers[j] := by
    rw [List.get?_eq_getElem?, List.getElem?_eq_getElem hj]
  rw [chunksForHeader_eq lines headers j _ hg]
  split <;> rfl

/-- C8 (amended): header entities are only emitted for levels 1 and 2,
but section chunks are emitted for every header of any level: the
chunks carrying header `i`'s text are exactly the chunks built for
header `i`, there are two of them when the stripped section text
(between the header and the next header of any level) is longer than 5
characters and none otherwise, and each one is an implementation chunk
holding that section text. -/
theorem extract_section_content_spec (lines : List Str)
    (hnd : ((find_md_headers lines).map (·.text)).Nodup)
    (i : Nat) (hi : i < (find_md_headers lines).length) :
    (∀ e ∈ extract_headers lines, e.header_level ≤ 2) ∧
    (extract_section_content lines).filter
        (fun c => c.entity_name ==
          ((find_md_headers lines).getD i default).text) =
      chunksForHeader lines (find_md_headers lines) i ∧
    (chunksForHeader lines (find_md_headers lines) i).length =
      (if !(sectionText lines (find_md_headers lines) i).isEmpty &&
          5 < (strStrip (sectionText lines (find_md_headers lines) i)).length
       then 2 else 0) ∧
    (∀ c ∈ chunksForHeader lines (find_md_headers lines) i,
      c.entity_name = ((find_md_headers lines).getD i default).text ∧
      c.chunk_type = str "implementation" ∧
      c.content = sectionText lines (find_md_headers lines) i) := by
  refine ⟨?_, ?_, chunksForHeader_length lines _ i hi,
    fun c hc => chunksForHeader_fields lines _ i c hc⟩
  · intro e he
    simp only [extract_headers, List.mem_filterMap] at he
    obtain ⟨p, _, hp⟩ := he
    by_cases h1 : strStarts (str "#") (strStrip p.2) = true
    · rw [if_pos h1] at hp
      split at hp
      · rename_i hcond
        cases hp
        exact of_decide_eq_true (Bool.and_elim_right hcond)
      · cases hp
    · rw [if_neg h1] at hp
      cases hp
  · have hgd : (find_md_headers lines).getD i default =
        (find_md_headers lines)[i] := by
      rw [List.getD_eq_getElem?_getD, List.getElem?_eq_getElem hi]
      rfl
    unfold extract_section_content
    rw [List.filter_flatMap]
    rw [flatMap_range_eq_single (find_md_headers lines).length i _ hi ?hz]
    case hz =>
      intro j hj hne
      apply List.filter_eq_nil_iff.mpr
      intro c hc
      have hf := chunksForHeader_fields lines (find_md_headers lines) j c hc
      have hgdj : (find_md_headers lines).getD j default =
          (find_md_headers lines)[j] := by
        rw [List.getD_eq_getElem?_getD, List.getElem?_eq_getElem hj]
        rfl
      have htex : (find_md_headers lines)[j].text ≠
          (find_md_headers lines)[i].text := by
        intro heq
        apply hne
        have hjm : j < ((find_md_headers lines).map (·.text)).length := by
          simpa using hj
        have him : i < ((find_md_headers lines).map (·.text)).length := by
          simpa using hi
        have hmap : ((find_md_headers lines).map (·.text))[j] =
            ((find_md_headers lines).map (·.text))[i] := by
          rw [List.getElem_map, List.getElem_map]
          exact heq
        exact (List.Nodup.getElem_inj_iff hnd).mp hmap
      simp only [hf.1, hgdj, hgd, beq_iff_eq]
      exact fun h => htex (by simpa using h)
    apply List.filter_eq_self.mpr
    intro c hc
    have hf := chunksForHeader_fields lines (find_md_headers lines) i c hc
    rw [hf.1, hgd]
    exact beq_self_eq_true _

/-- Witness for C8 at a concrete file: `# Title` followed by body text
longer than 5 characters; the theorem is applied at header index 0 with
the nodup and bound hypotheses discharged concretely. -/
theorem extract_section_content_spec_witness :
    (∀ e ∈ extract_headers [str "# Title", str "hello world"],
      e.header_level ≤ 2) ∧
    (extract_section_content [str "# Title", str "hello world"]).filter
        (fun c => c.entity_name ==
          ((find_md_headers [str "# Title", str "hello world"]).getD 0
            default).text) =
      chunksForHeader [str "# Title", str "hello world"]
        (find_md_headers [str "# Title", str "hello world"]) 0 ∧
    (chunksForHeader [str "# Title", str "hello world"]
        (find_md_headers [str "# Title", str "hello world"]) 0).length =
      (if !(sectionText [str "# Title", str "hello world"]
            (find_md_headers [str "# Title", str "hello world"]) 0).isEmpty &&
          5 < (strStrip (sectionText [str "# Title", str "hello world"]
            (find_md_headers [str "# Title", str "hello world"]) 0)).length
       then 2 else 0) ∧
    (∀ c ∈ chunksForHeader [str "# Title", str "hello world"]
        (find_md_headers [str "# Title", str "hello world"]) 0,
      c.entity_name =
        ((find_md_headers [str "# Title", str "hello world"]).getD 0
          default).text ∧
      c.chunk_type = str "implementation" ∧
      c.content = sectionText [str "# Title", str "hello world"]
        (find_md_headers [str "# Title", str "hello world"]) 0) :=
  extract_section_content_spec [str "# Title", str "hello world"]
    (by decide) 0 (by decide)

/-- Counterexample to C8 as stated: a file whose only header is the
level-3 `### Deep` produces two implementation chunks, although the
claim says sections under headers deeper than level 2 produce no
chunks (and at most one per section); the entity extraction does drop
the header. -/
theorem extract_section_content_claim_counterexample :
    extract_headers [str "### Deep", str "hello world"] = [] ∧
    (extract_section_content [str "### Deep", str "hello world"]).length = 2 := by
  decide

end ClaudeIndexer
